import Mathlib

/-
Shallow embedding of the album-maker clustering and duplicate-resolution
engine (src/src/models.py, src/src/clustering.py,
src/src/duplicate_detection.py, src/src/graph_duplicates.py,
src/src/database.py).

Modelling conventions: Python floats are modelled as rationals wherever the
code only does field arithmetic and comparisons (quality scores, GPS
coordinates, times), and as reals where transcendental functions occur
(the haversine great-circle distance); `None` becomes `Option`; float
infinity sentinels become `WithTop`; Python dicts (which preserve insertion
order) become association lists.
-/

namespace AlbumMaker

/-- Model of a Python `datetime`: a civil date plus seconds elapsed within
the day.  Ordering and subtraction go through `toSec` (absolute seconds
since the 1970-01-01 epoch), which for valid dates agrees with `datetime`
comparison and `timedelta.total_seconds()`. -/
structure PyDateTime where
  year : Int
  month : Nat
  day : Nat
  second : Rat
deriving DecidableEq, Repr

/-- Days between a civil date and 1970-01-01 (the standard civil-from-days
algorithm; `Int.tdiv` truncates toward zero like C/Python int division on
the nonnegative operands that arise here). -/
def daysFromCivil (y : Int) (m : Int) (d : Int) : Int :=
  let y2 : Int := if m ≤ 2 then y - 1 else y
  let era : Int := Int.tdiv (if 0 ≤ y2 then y2 else y2 - 399) 400
  let yoe : Int := y2 - era * 400
  let mp : Int := if 2 < m then m - 3 else m + 9
  let doy : Int := Int.tdiv (153 * mp + 2) 5 + d - 1
  let doe : Int := yoe * 365 + Int.tdiv yoe 4 - Int.tdiv yoe 100 + doy
  era * 146097 + doe - 719468

/-- Absolute seconds since the epoch of a `PyDateTime`. -/
def PyDateTime.toSec (t : PyDateTime) : Rat :=
  (daysFromCivil t.year t.month t.day : Rat) * 86400 + t.second

/-- Left-pad a string with zeros to the given width (Python `%Y`/`%m`/`%d`
zero padding). -/
def padZero (w : Nat) (s : String) : String :=
  if s.length < w then String.mk (List.replicate (w - s.length) '0') ++ s else s

/-- `datetime.strftime("%Y-%m-%d")`. -/
def formatDate (t : PyDateTime) : String :=
  padZero 4 (toString t.year) ++ "-" ++ padZero 2 (toString t.month) ++ "-" ++
    padZero 2 (toString t.day)

/-- models.py: the `Image` dataclass. -/
structure Image where
  id : Option Nat := none
  filename : String := ""
  latitude : Option Rat := none
  longitude : Option Rat := none
  timestamp : Option PyDateTime := none
  blur_score : Rat := 0
  hash : String := ""
  cluster_id : Option Nat := none
  is_duplicate : Bool := false
  duplicate_group : Option Nat := none
deriving DecidableEq, Repr

/-- models.py: the `Cluster` dataclass. -/
structure Cluster where
  id : Option Nat := none
  name : String := ""
  center_lat : Option Rat := none
  center_lon : Option Rat := none
  start_time : Option PyDateTime := none
  end_time : Option PyDateTime := none
  image_count : Nat := 0
deriving DecidableEq, Repr

/-- models.py: the `DuplicateGroup` dataclass (`image_ids` is the textual
serialization `str(list_of_ids)`). -/
structure DuplicateGroup where
  id : Option Nat := none
  best_image_id : Option Nat := none
  image_ids : String := ""
deriving DecidableEq, Repr

/-! ## Exact-match duplicate resolver (duplicate_detection.py) -/

/-- duplicate_detection.py `calculate_blur_scores`: images whose blur score
is still 0.0 get a score from the external blur detector (modelled as the
oracle `blurOf` over the filename; the oracle also absorbs the
exception-to-0.5 fallback).  All other images pass through unchanged. -/
def calculate_blur_scores (blurOf : String → Rat) (images : List Image) :
    List Image :=
  images.map fun img =>
    if img.blur_score = 0 then { img with blur_score := blurOf img.filename }
    else img

/-- Distinct elements of a list in order of first occurrence: the key order
of a Python insertion-ordered dict built by repeated appends (a key is
added the first time it is seen). -/
def dictKeys (l : List String) : List String :=
  l.foldl (fun acc h => if h ∈ acc then acc else acc ++ [h]) []

/-- The keys of `hash_groups` in duplicate_detection.py
`greedy_select_best_images`: distinct non-empty hashes in order of first
occurrence. -/
def hashKeys (images : List Image) : List String :=
  dictKeys ((images.map Image.hash).filter (fun s => s ≠ ""))

/-- Hash-equality classes with at least two members, in key order: the
groups kept by `greedy_select_best_images` before sorting. -/
def rawGroups (images : List Image) : List (List Image) :=
  ((hashKeys images).map (fun h => images.filter (fun i => i.hash = h))).filter
    (fun g => 1 < g.length)

/-- The hash-equality class of one key: `hash_groups[h]`. -/
def classOf (images : List Image) (h : String) : List Image :=
  images.filter (fun i => i.hash = h)

/-- The hash keys whose class has at least two members (the keys that give
rise to duplicate groups). -/
def multiKeys (images : List Image) : List String :=
  (hashKeys images).filter (fun h => 1 < (classOf images h).length)

/-- Stable insertion of an image into a list already sorted by descending
blur score: the image goes before the first element whose score is ≤ its
own (so among equal scores, earlier input elements stay first —
Python `sorted(key=..., reverse=True)` is stable). -/
def insertDescBlur (a : Image) : List Image → List Image
  | [] => [a]
  | b :: t =>
    if b.blur_score ≤ a.blur_score then a :: b :: t else b :: insertDescBlur a t

/-- Stable sort by descending blur score (Python
`sorted(group, key=lambda x: x.blur_score, reverse=True)`). -/
def sortDescBlur : List Image → List Image
  | [] => []
  | x :: xs => insertDescBlur x (sortDescBlur xs)

/-- duplicate_detection.py `greedy_select_best_images`: the duplicate
groups, each sorted by descending blur score, in key order.  The dict key
(group id) of the k-th group is k+1. -/
def greedy_select_best_images (images : List Image) : List (List Image) :=
  (rawGroups images).map sortDescBlur

/-- duplicate_detection.py lines 72-87: sort a group by descending blur
score, keep the first image as representative (`is_duplicate := false`),
mark all the others as duplicates; every member (representative included)
gets `duplicate_group := gid`. -/
def markDuplicateGroup (gid : Nat) (g : List Image) : List Image :=
  match sortDescBlur g with
  | [] => []
  | best :: rest =>
    { best with is_duplicate := false, duplicate_group := some gid } ::
      rest.map (fun i => { i with is_duplicate := true, duplicate_group := some gid })

/-- The per-group in-memory mutation effect of `filter_blurred_duplicates`:
the k-th duplicate group after marking, with group id k+1. -/
def exactResolverGroups (blurOf : String → Rat) (images : List Image) :
    List (List Image) :=
  (greedy_select_best_images (calculate_blur_scores blurOf images)).enum.map
    (fun p => markDuplicateGroup (p.1 + 1) p.2)

/-- duplicate_detection.py lines 104-108: the hashes of all duplicate-group
members (`processed_hashes`). -/
def processedHashes (groups : List (List Image)) : List String :=
  groups.flatten.map Image.hash

/-- duplicate_detection.py `filter_blurred_duplicates` as a pure function:
blur scores are backfilled, groups are formed, and the returned list is the
marked representative of every group followed by the images whose hash
belongs to no group. -/
def filter_blurred_duplicates (blurOf : String → Rat) (images : List Image) :
    List Image :=
  let wb := calculate_blur_scores blurOf images
  let groups := greedy_select_best_images wb
  let kept := groups.enum.flatMap
    (fun p => (markDuplicateGroup (p.1 + 1) p.2).take 1)
  kept ++ wb.filter (fun i => i.hash ∉ processedHashes groups)

/-! ## Perceptual similarity graph resolver (graph_duplicates.py) -/

/-- Value of one hexadecimal digit, as accepted by Python `int(s, 16)` for
the canonical hash strings produced by `imagehash` (digits and letters in
either case). -/
def hexDigitVal (c : Char) : Option Nat :=
  if '0' ≤ c ∧ c ≤ '9' then some (c.toNat - 48)
  else if 'a' ≤ c ∧ c ≤ 'f' then some (c.toNat - 87)
  else if 'A' ≤ c ∧ c ≤ 'F' then some (c.toNat - 55)
  else none

/-- Python `int(s, 16)` on a canonical hash string: fails on the empty
string or on any non-hex-digit character. -/
def parseHex (s : String) : Option Nat :=
  if s.length = 0 then none
  else s.data.foldl
    (fun acc c => acc.bind (fun n => (hexDigitVal c).map (fun v => 16 * n + v)))
    (some 0)

/-- Big-endian bit vector of width `w` of a natural number (Python
`"{:0>{width}b}".format(n)`). -/
def natToBits (w : Nat) (n : Nat) : List Bool :=
  (List.range w).map (fun i => n.testBit (w - 1 - i))

/-- Integer square root (`int(numpy.sqrt(n))`): the largest `r ≤ n` with
`r * r ≤ n`, computed by a structural scan so that it evaluates inside the
kernel. -/
def intSqrt (n : Nat) : Nat :=
  (List.range (n + 1)).foldl (fun acc r => if r * r ≤ n then r else acc) 0

/-- imagehash `hex_to_hash`: the bit matrix (flattened row-major) encoded by
a hex string; the asserted shape check requires `4 * length` to be a
perfect square, and parsing fails on malformed hex. -/
def hex_to_hash (s : String) : Option (List Bool) :=
  let bits := s.length * 4
  let size := intSqrt bits
  if size * size = bits then (parseHex s).map (natToBits bits) else none

/-- Count of positions at which two equal-length bit vectors differ
(numpy `count_nonzero(a.flatten() != b.flatten())`). -/
def hammingDist (a b : List Bool) : Nat :=
  (a.zip b).countP (fun p => p.1 ≠ p.2)

/-- graph_duplicates.py `calculate_hash_distance`: Hamming distance of the
two decoded hashes; 999 when either hash fails to decode or the shapes
differ (the exception path). -/
def calculate_hash_distance (h1 h2 : String) : Nat :=
  match hex_to_hash h1, hex_to_hash h2 with
  | some b1, some b2 => if b1.length = b2.length then hammingDist b1 b2 else 999
  | _, _ => 999

/-- The edge condition of `build_similarity_graph` (lines 57-64): both
hashes non-empty and hash distance within the threshold. -/
def edgeCond (t : Nat) (a b : Image) : Prop :=
  a.hash ≠ "" ∧ b.hash ≠ "" ∧ calculate_hash_distance a.hash b.hash ≤ t

instance (t : Nat) (a b : Image) : Decidable (edgeCond t a b) := by
  unfold edgeCond; infer_instance

/-- All ordered pairs (earlier element, later element) of a list — the
iteration `for i, img1 in enumerate(images): for img2 in images[i+1:]`. -/
def listPairs : List α → List (α × α)
  | [] => []
  | x :: xs => xs.map (fun y => (x, y)) ++ listPairs xs

/-- An edge of the similarity graph: endpoint node keys (image ids),
Hamming distance, and the diagnostic weight `1/(distance+1)`. -/
structure GEdge where
  u : Option Nat
  v : Option Nat
  distance : Nat
  weight : Rat
deriving DecidableEq, Repr

/-- graph_duplicates.py `build_similarity_graph`: one edge per ordered image
pair satisfying `edgeCond` (nodes are the image ids; `networkx` graphs are
undirected, so adjacency below is the symmetric closure). -/
def gEdges (images : List Image) (t : Nat) : List GEdge :=
  (listPairs images).filterMap fun p =>
    if edgeCond t p.1 p.2 then
      some ⟨p.1.id, p.2.id, calculate_hash_distance p.1.hash p.2.hash,
        1 / (calculate_hash_distance p.1.hash p.2.hash + 1)⟩
    else none

/-- Adjacency of two node keys in the (undirected) similarity graph. -/
def adjacent (images : List Image) (t : Nat) (u v : Option Nat) : Prop :=
  ∃ e ∈ gEdges images t, (e.u = u ∧ e.v = v) ∨ (e.u = v ∧ e.v = u)

/-- Two node keys lie in the same connected component of the similarity
graph (`networkx.connected_components` semantics: reflexive-transitive
closure of adjacency). -/
def sameComponent (images : List Image) (t : Nat) (u v : Option Nat) : Prop :=
  Relation.ReflTransGen (adjacent images t) u v

/-- Two images land in the same duplicate group of
`find_connected_duplicate_groups`: their ids share a connected component,
and that component has at least two nodes (singleton components are not
groups). -/
def inSameDuplicateGroup (images : List Image) (t : Nat) (a b : Image) : Prop :=
  sameComponent images t a.id b.id ∧
    ∃ u v : Option Nat, u ≠ v ∧
      sameComponent images t a.id u ∧ sameComponent images t a.id v

/-- graph_duplicates.py lines 130-141: mark one (already blur-sorted)
component group — first image is the representative
(`is_duplicate := false`), the rest are duplicates; all members get
`duplicate_group := gid`. -/
def markGraphGroup (gid : Nat) (g : List Image) : List Image :=
  match g with
  | [] => []
  | best :: rest =>
    { best with is_duplicate := false, duplicate_group := some gid } ::
      rest.map (fun i => { i with is_duplicate := true, duplicate_group := some gid })

/-- The in-memory mutation effect of `detect_graph_based_duplicates` on the
duplicate groups: the k-th group is marked with group id k+1. -/
def graphResolverGroups (groups : List (List Image)) : List (List Image) :=
  groups.enum.map (fun p => markGraphGroup (p.1 + 1) p.2)

/-! ## Geo-time distance metrics and proximity clustering (clustering.py)

The distance functions use real-valued trigonometry, so this section is
noncomputable; float infinity is `(⊤ : WithTop ℝ)`. -/

instance : Inhabited Image := ⟨{}⟩

section Clustering

open scoped Classical

/-- clustering.py `haversine_distance` (degrees in, kilometres out). -/
noncomputable def haversine_distance (lat1 lon1 lat2 lon2 : ℝ) : ℝ :=
  let lat1r := lat1 * (Real.pi / 180)
  let lon1r := lon1 * (Real.pi / 180)
  let lat2r := lat2 * (Real.pi / 180)
  let lon2r := lon2 * (Real.pi / 180)
  let dlat := lat2r - lat1r
  let dlon := lon2r - lon1r
  let a := Real.sin (dlat / 2) ^ 2 +
    Real.cos lat1r * Real.cos lat2r * Real.sin (dlon / 2) ^ 2
  let c := 2 * Real.arcsin (Real.sqrt a)
  c * 6371.0

/-- clustering.py `calculate_gps_distance`: haversine distance, or infinity
when either image lacks a coordinate. -/
noncomputable def calculate_gps_distance (a b : Image) : WithTop ℝ :=
  match a.latitude, a.longitude, b.latitude, b.longitude with
  | some la1, some lo1, some la2, some lo2 =>
    ((haversine_distance la1 lo1 la2 lo2 : ℝ) : WithTop ℝ)
  | _, _, _, _ => ⊤

/-- clustering.py `calculate_time_difference`: absolute timestamp difference
in hours, or infinity when either image lacks a timestamp. -/
noncomputable def calculate_time_difference (a b : Image) : WithTop ℝ :=
  match a.timestamp, b.timestamp with
  | some t1, some t2 => (((|t1.toSec - t2.toSec| / 3600 : ℚ) : ℝ) : WithTop ℝ)
  | _, _ => ⊤

/-- clustering.py `combined_distance`: normalized weighted combination of
GPS and time distance; infinite components are replaced by the sentinel
1000 before normalization. -/
noncomputable def combined_distance (a b : Image)
    (distance_weight : ℝ := 0.6) (time_weight : ℝ := 0.4) : ℝ :=
  let gps : ℝ := match calculate_gps_distance a b with
    | ⊤ => 1000
    | (x : ℝ) => x
  let tdiff : ℝ := match calculate_time_difference a b with
    | ⊤ => 1000
    | (x : ℝ) => x
  let normalized_gps := min (gps / 10) 1
  let normalized_time := min (tdiff / 24) 1
  distance_weight * normalized_gps + time_weight * normalized_time

/-- The precomputed distance matrix of `hierarchical_cluster_images`
(lines 113-119): an entry exists for every pair of distinct valid indices,
and a missing key reads as infinity (`distances.get(..., inf)`). -/
noncomputable def distLookup (images : List Image) (i j : ℕ) : WithTop ℝ :=
  if i < images.length ∧ j < images.length ∧ i ≠ j then
    ((combined_distance (images.getD i default) (images.getD j default) :
      ℝ) : WithTop ℝ)
  else ⊤

/-- Single-linkage distance between two clusters (lines 132-139): minimum
matrix entry over all member pairs, looked up through `images.index`. -/
noncomputable def clusterPairDist (images : List Image)
    (c1 c2 : List Image) : WithTop ℝ :=
  c1.foldl
    (fun acc i1 =>
      c2.foldl
        (fun acc2 i2 =>
          min acc2 (distLookup images (images.indexOf i1) (images.indexOf i2)))
        acc)
    ⊤

/-- The ordered key pairs scanned by the merge loop
(`for cid1 in clusters: for cid2 in clusters: if cid1 >= cid2: continue`),
in dict iteration order. -/
def orderedKeyPairs (cs : List (ℕ × List Image)) : List (ℕ × ℕ) :=
  (cs.map Prod.fst).flatMap fun a =>
    (cs.map Prod.fst).filterMap fun b => if a < b then some (a, b) else none

/-- Key lookup in an association list (`clusters[cid]`). -/
def lookupKey (k : ℕ) : List (ℕ × List Image) → Option (List Image)
  | [] => none
  | q :: t => if q.1 = k then some q.2 else lookupKey k t

/-- The closest-pair scan of one merge round (lines 123-143): the minimum
single-linkage distance found and the first pair attaining it (strict
`<` update keeps the first minimum in scan order). -/
noncomputable def closestPair (images : List Image)
    (cs : List (ℕ × List Image)) : WithTop ℝ × Option (ℕ × ℕ) :=
  (orderedKeyPairs cs).foldl
    (fun acc p =>
      let d := clusterPairDist images ((lookupKey p.1 cs).getD [])
        ((lookupKey p.2 cs).getD [])
      if d < acc.1 then (d, some p) else acc)
    (⊤, none)

/-- `clusters[cid1].extend(...)`: append to the value stored at one key. -/
def appendAt (k : ℕ) (v : List Image) (cs : List (ℕ × List Image)) :
    List (ℕ × List Image) :=
  cs.map fun q => if q.1 = k then (q.1, q.2 ++ v) else q

/-- `del clusters[cid2]`: drop the entry with the given key. -/
def removeKey (k : ℕ) (cs : List (ℕ × List Image)) :
    List (ℕ × List Image) :=
  cs.filter fun q => q.1 ≠ k

/-- Lines 154-158: merge cluster `c2` into cluster `c1`. -/
def mergeClusters (cs : List (ℕ × List Image)) (c1 c2 : ℕ) :
    List (ℕ × List Image) :=
  removeKey c2 (appendAt c1 ((lookupKey c2 cs).getD []) cs)

/-- The `if max_clusters and len(clusters) <= max_clusters` stop test
(`0` is falsy in Python, hence the `m ≠ 0` guard). -/
def maxClustersReached (maxC : Option ℕ) (n : ℕ) : Bool :=
  match maxC with
  | some m => m ≠ 0 && n ≤ m
  | none => false

/-- The `while len(clusters) > 1` merge loop of
`hierarchical_cluster_images`, with explicit fuel (each productive round
removes one cluster, so `images.length` rounds suffice; the `none` branch
re-runs the identical round and is unreachable because an empty scan leaves
the minimum at infinity, which already broke out). -/
noncomputable def hloop (images : List Image) (θ : ℝ) (maxC : Option ℕ) :
    ℕ → List (ℕ × List Image) → List (ℕ × List Image)
  | 0, cs => cs
  | fuel + 1, cs =>
    if cs.length ≤ 1 then cs
    else if (θ : WithTop ℝ) < (closestPair images cs).1 then cs
    else if maxClustersReached maxC cs.length then cs
    else
      match (closestPair images cs).2 with
      | some p => hloop images θ maxC fuel (mergeClusters cs p.1 p.2)
      | none => hloop images θ maxC fuel cs

/-- Lines 160-163: renumber surviving clusters with consecutive ids from 0,
keeping discovery order. -/
def renumber (cs : List (ℕ × List Image)) : List (ℕ × List Image) :=
  (List.range cs.length).zip (cs.map Prod.snd)

/-- Line 110: one singleton cluster per image, keyed 0,1,2,.... -/
def initClusters (images : List Image) : List (ℕ × List Image) :=
  images.enum.map fun p => (p.1, [p.2])

/-- All images held by a cluster table, in table order. -/
def clusterVals (cs : List (ℕ × List Image)) : List Image :=
  (cs.map Prod.snd).flatten

/-- clustering.py `hierarchical_cluster_images`. -/
noncomputable def hierarchical_cluster_images (images : List Image) (θ : ℝ)
    (maxC : Option ℕ) : List (ℕ × List Image) :=
  match images with
  | [] => []
  | [img] => [(0, [img])]
  | imgs => renumber (hloop imgs θ maxC imgs.length (initClusters imgs))

/-- clustering.py `cluster_images`: threshold conversion, hierarchical
clustering, then the defensive outlier fallback into cluster 0. -/
noncomputable def cluster_images (images : List Image)
    (distance_threshold : ℝ := 1.0) (time_threshold_hours : ℝ := 2.0) :
    List (ℕ × List Image) :=
  if images = [] then []
  else
    let θ := min (distance_threshold / 10 + time_threshold_hours / 24) 1 * 0.5
    let cs0 := hierarchical_cluster_images images θ none
    let cs1 := if cs0 = [] then [(0, [])] else cs0
    let ids := (cs1.map Prod.snd).flatten.map Image.id
    let outliers := images.filter fun i => i.id ∉ ids
    if outliers = [] then cs1
    else if (lookupKey 0 cs1).isSome then
      cs1.map fun q => if q.1 = 0 then (q.1, q.2 ++ outliers) else q
    else cs1 ++ [(0, outliers)]

end Clustering

/-! ## Cluster metadata (clustering.py `calculate_cluster_metadata`) -/

/-- Lines 206-207: coordinates of the members that carry GPS. -/
def validCoords (images : List Image) : List (Rat × Rat) :=
  images.filterMap fun i =>
    match i.latitude, i.longitude with
    | some la, some lo => some (la, lo)
    | _, _ => none

/-- Lines 209-214: mean of the valid coordinates, if any. -/
def centroidOf (images : List Image) : Option (Rat × Rat) :=
  let vc := validCoords images
  if vc = [] then none
  else some ((vc.map Prod.fst).sum / vc.length, (vc.map Prod.snd).sum / vc.length)

/-- Line 217: timestamps of the members that carry one. -/
def validTimes (images : List Image) : List PyDateTime :=
  images.filterMap Image.timestamp

/-- Python `min` over datetimes: the first chronologically-least element. -/
def pyMinTime : List PyDateTime → Option PyDateTime
  | [] => none
  | t :: ts => some (ts.foldl (fun m x => if x.toSec < m.toSec then x else m) t)

/-- Python `max` over datetimes: the first chronologically-greatest
element. -/
def pyMaxTime : List PyDateTime → Option PyDateTime
  | [] => none
  | t :: ts => some (ts.foldl (fun m x => if m.toSec < x.toSec then x else m) t)

/-- The NYC reference test of lines 227-228 (strict ±1° box). -/
def nearNYC (la lo : Rat) : Prop := |la - 40.7128| < 1 ∧ |lo - (-74.0060)| < 1

/-- The LA reference test of lines 229-230. -/
def nearLA (la lo : Rat) : Prop := |la - 34.0522| < 1 ∧ |lo - (-118.2437)| < 1

instance (la lo : Rat) : Decidable (nearNYC la lo) := by
  unfold nearNYC; infer_instance

instance (la lo : Rat) : Decidable (nearLA la lo) := by
  unfold nearLA; infer_instance

/-- Lines 225-234: the location label — note that the fall-through branch
for a centroid near neither reference produces the literal string ".1f"
(a mangled format string in the source), not "Unknown". -/
def locationName (c : Option (Rat × Rat)) : String :=
  match c with
  | some (la, lo) =>
    if nearNYC la lo then "NYC" else if nearLA la lo then "LA" else ".1f"
  | none => "Unknown"

/-- clustering.py `calculate_cluster_metadata`. -/
def calculate_cluster_metadata (images : List Image) : Cluster :=
  if images = [] then {}
  else
    let c := centroidOf images
    let ts := validTimes images
    let st := pyMinTime ts
    let name :=
      match st with
      | some t => locationName c ++ "_" ++ formatDate t
      | none => locationName c ++ "_cluster"
    { name := name, center_lat := c.map Prod.fst, center_lon := c.map Prod.snd,
      start_time := st, end_time := pyMaxTime ts,
      image_count := images.length }

/-! ## Storage layer (database.py) -/

/-- The persisted state behind the `Database` class: the three tables plus
their autoincrement counters. -/
structure DB where
  images : List Image := []
  nextImageId : Nat := 1
  clusters : List Cluster := []
  nextClusterId : Nat := 1
  dupGroups : List DuplicateGroup := []
  nextGroupId : Nat := 1
deriving Repr

/-- The mutating storage operations database.py exposes to the pipeline. -/
inductive PipelineOp where
  | addImage (img : Image)
  | updateImageCluster (imageId clusterId : Nat)
  | updateImageBlurScore (imageId : Nat) (score : Rat)
  | markAsDuplicate (imageId dupGroup : Nat)
  | saveDuplicateGroup (group : DuplicateGroup)
  | addCluster (c : Cluster)
  | updateClusterImageCount (clusterId count : Nat)
deriving Repr

/-- Semantics of each storage operation (database.py lines 60-140):
`mark_as_duplicate` runs
`UPDATE images SET is_duplicate = TRUE, duplicate_group = ? WHERE id = ?`;
inserts assign the next autoincrement id; no operation ever writes
`is_duplicate = FALSE`. -/
def applyOp (s : DB) : PipelineOp → DB
  | .addImage img =>
    { s with
      images := s.images ++ [{ img with id := some s.nextImageId }],
      nextImageId := s.nextImageId + 1 }
  | .updateImageCluster i c =>
    { s with images := s.images.map fun r =>
        if r.id = some i then { r with cluster_id := some c } else r }
  | .updateImageBlurScore i b =>
    { s with images := s.images.map fun r =>
        if r.id = some i then { r with blur_score := b } else r }
  | .markAsDuplicate i g =>
    { s with images := s.images.map fun r =>
        if r.id = some i then
          { r with is_duplicate := true, duplicate_group := some g }
        else r }
  | .saveDuplicateGroup grp =>
    { s with
      dupGroups := s.dupGroups ++ [{ grp with id := some s.nextGroupId }],
      nextGroupId := s.nextGroupId + 1 }
  | .addCluster c =>
    { s with
      clusters := s.clusters ++ [{ c with id := some s.nextClusterId }],
      nextClusterId := s.nextClusterId + 1 }
  | .updateClusterImageCount i n =>
    { s with clusters := s.clusters.map fun c =>
        if c.id = some i then { c with image_count := n } else c }

/-- A whole sequence of storage operations. -/
def applyOps (s : DB) (ops : List PipelineOp) : DB := ops.foldl applyOp s

/-- Python `str(list_of_ids)` for the duplicate-group member serialization. -/
def pyStrIntList (ids : List (Option Nat)) : String :=
  "[" ++ String.intercalate ", "
    (ids.map fun o => match o with | some n => toString n | none => "None") ++ "]"

/-- The storage trace of `detect_graph_based_duplicates` steps 4
(lines 130-153): per group, `mark_as_duplicate(img.id or 0, group_id)` for
every non-representative, then `save_duplicate_group`; the representative
is never written back. -/
def graphResolverDbOps (groups : List (List Image)) : List PipelineOp :=
  groups.enum.flatMap fun p =>
    match p.2 with
    | [] => []
    | best :: rest =>
      rest.map (fun i => PipelineOp.markAsDuplicate (i.id.getD 0) (p.1 + 1)) ++
        [PipelineOp.saveDuplicateGroup
          { id := some (p.1 + 1), best_image_id := best.id,
            image_ids := pyStrIntList (rest.map Image.id) }]

/-! ## Concrete records used by witnesses and counterexamples -/

/-- Two images sharing the hash "aa"; the later one is sharper. -/
def imgA : Image := { id := some 1, filename := "a.jpg", blur_score := 1, hash := "aa" }

def imgB : Image := { id := some 2, filename := "b.jpg", blur_score := 2, hash := "aa" }

/-- An image with no GPS and no timestamp. -/
def imgBare : Image := { id := some 3, filename := "bare.jpg" }

/-- An image with GPS and timestamp present. -/
def imgNYC : Image :=
  { id := some 4, filename := "nyc.jpg", latitude := some 40, longitude := some (-74),
    timestamp := some ⟨2025, 1, 1, 0⟩ }

/-- An image whose centroid is far from both reference locations. -/
def imgFar : Image := { id := some 5, filename := "far.jpg", latitude := some 0, longitude := some 0 }

/-- Three images with 64-bit-shaped hashes at pairwise Hamming distances
1 (X-Y), 1 (Y-Z) and 2 (X-Z). -/
def imgX : Image := { id := some 11, filename := "x.jpg", hash := "0000" }

def imgY : Image := { id := some 12, filename := "y.jpg", hash := "0001" }

def imgZ : Image := { id := some 13, filename := "z.jpg", hash := "0003" }

/-- An image carrying a malformed (non-hex) hash. -/
def imgBadHash : Image := { id := some 21, filename := "bad.jpg", hash := "zz" }

/-- An image row already marked duplicate in storage. -/
def imgMarked : Image :=
  { id := some 1, filename := "m.jpg", is_duplicate := true, duplicate_group := some 1 }

/-- A storage state holding one image already marked duplicate. -/
def dbS0 : DB := { images := [imgMarked], nextImageId := 2 }

/-! ## Helper lemmas: the stable descending blur sort -/

theorem insertDescBlur_perm (a : Image) (l : List Image) :
    List.Perm (insertDescBlur a l) (a :: l) := by
  induction l with
  | nil => simp [insertDescBlur]
  | cons b t ih =>
    by_cases h : b.blur_score ≤ a.blur_score
    · simp [insertDescBlur, h]
    · simp only [insertDescBlur, if_neg h]
      exact (ih.cons b).trans (List.Perm.swap a b t)

theorem sortDescBlur_perm (l : List Image) : List.Perm (sortDescBlur l) l := by
  induction l with
  | nil => rfl
  | cons x xs ih =>
    exact (insertDescBlur_perm x (sortDescBlur xs)).trans (ih.cons x)

theorem sortDescBlur_length (l : List Image) :
    (sortDescBlur l).length = l.length :=
  (sortDescBlur_perm l).length_eq

/-- The head of the stable descending sort is a maximal element, and it is
the first maximal element of the input: everything before it in the input
has a strictly smaller blur score. -/
theorem sortDescBlur_head_split (l : List Image) (hl : l ≠ []) :
    ∃ best rest pre post,
      sortDescBlur l = best :: rest ∧ l = pre ++ best :: post ∧
      (∀ y ∈ pre, y.blur_score < best.blur_score) ∧
      (∀ y ∈ l, y.blur_score ≤ best.blur_score) := by
  induction l with
  | nil => exact absurd rfl hl
  | cons x xs ih =>
    rcases eq_or_ne xs [] with hxs | hxs
    · subst hxs
      exact ⟨x, [], [], [], rfl, rfl, by simp, by simp⟩
    · obtain ⟨b, r, pre, post, hsort, hsplit, hpre, hmax⟩ := ih hxs
      by_cases hcmp : b.blur_score ≤ x.blur_score
      · refine ⟨x, b :: r, [], xs, ?_, rfl, by simp, ?_⟩
        · simp [sortDescBlur, hsort, insertDescBlur, hcmp]
        · intro y hy
          rcases List.mem_cons.mp hy with hy | hy
          · exact le_of_eq (by rw [hy])
          · exact (hmax y hy).trans hcmp
      · refine ⟨b, insertDescBlur x r, x :: pre, post, ?_, by simp [hsplit], ?_, ?_⟩
        · simp [sortDescBlur, hsort, insertDescBlur, hcmp]
        · intro y hy
          rcases List.mem_cons.mp hy with hy | hy
          · rw [hy]; exact lt_of_not_le hcmp
          · exact hpre y hy
        · intro y hy
          rcases List.mem_cons.mp hy with hy | hy
          · rw [hy]; exact le_of_lt (lt_of_not_le hcmp)
          · exact hmax y hy

/-! ## Helper lemmas: hash groups -/

theorem rawGroups_two_le (images : List Image) (g : List Image)
    (hg : g ∈ rawGroups images) : 2 ≤ g.length := by
  have := (List.mem_filter.mp hg).2
  simpa using this

/-! ## Claim C1 -/

/-- C1: every duplicate group created by the exact-match resolver (the k-th
group of `greedy_select_best_images`, whose assigned group id is k+1) has
at least 2 members; its representative — the head after the stable
descending blur sort — has the maximum blur score of the group and is the
first member of the input-order group attaining that maximum; the marking
step keeps the representative with `is_duplicate = false` and marks every
other member `is_duplicate = true`. -/
theorem exact_match_group_spec (images : List Image) (k : Nat)
    (g0 : List Image) (hk : (rawGroups images).get? k = some g0) :
    2 ≤ g0.length ∧
    ∃ best rest pre post,
      sortDescBlur g0 = best :: rest ∧
      (greedy_select_best_images images).get? k = some (best :: rest) ∧
      g0 = pre ++ best :: post ∧
      (∀ y ∈ pre, y.blur_score < best.blur_score) ∧
      (∀ y ∈ g0, y.blur_score ≤ best.blur_score) ∧
      markDuplicateGroup (k + 1) g0 =
        { best with is_duplicate := false, duplicate_group := some (k + 1) } ::
          rest.map (fun i =>
            { i with is_duplicate := true, duplicate_group := some (k + 1) }) := by
  have hmem : g0 ∈ rawGroups images := List.get?_mem hk
  have h2 : 2 ≤ g0.length := rawGroups_two_le _ _ hmem
  have hne : g0 ≠ [] := by
    intro h
    rw [h] at h2
    simp at h2
  obtain ⟨best, rest, pre, post, hs, hsplit, hpre, hmax⟩ :=
    sortDescBlur_head_split g0 hne
  refine ⟨h2, best, rest, pre, post, hs, ?_, hsplit, hpre, hmax, ?_⟩
  · unfold greedy_select_best_images
    rw [List.get?_map, hk]
    simp [hs]
  · unfold markDuplicateGroup
    rw [hs]

/-- C1 witness: the two-image input `[imgA, imgB]` with a shared hash forms
one raw group, and the theorem applies to it. -/
theorem exact_match_group_spec_witness :
    (rawGroups [imgA, imgB]).get? 0 = some [imgA, imgB] ∧
    2 ≤ ([imgA, imgB] : List Image).length :=
  ⟨by decide, (exact_match_group_spec [imgA, imgB] 0 [imgA, imgB] (by decide)).1⟩

/-! ## Helper lemmas: partitioning the input by hash class (for C4) -/

theorem dictKeys_foldl_mem (l : List String) (acc : List String) (x : String) :
    x ∈ l.foldl (fun a h => if h ∈ a then a else a ++ [h]) acc ↔
      x ∈ acc ∨ x ∈ l := by
  induction l generalizing acc with
  | nil => simp
  | cons h t ih =>
    by_cases hmem : h ∈ acc
    · simp only [List.foldl_cons, if_pos hmem, ih, List.mem_cons]
      constructor
      · rintro (hx | hx)
        · exact Or.inl hx
        · exact Or.inr (Or.inr hx)
      · rintro (hx | hx | hx)
        · exact Or.inl hx
        · exact Or.inl (hx ▸ hmem)
        · exact Or.inr hx
    · simp only [List.foldl_cons, if_neg hmem, ih, List.mem_append,
        List.mem_singleton, List.mem_cons]
      tauto

theorem dictKeys_mem (l : List String) (x : String) :
    x ∈ dictKeys l ↔ x ∈ l := by
  unfold dictKeys
  rw [dictKeys_foldl_mem]
  simp

theorem dictKeys_foldl_nodup (l : List String) (acc : List String)
    (hacc : acc.Nodup) :
    (l.foldl (fun a h => if h ∈ a then a else a ++ [h]) acc).Nodup := by
  induction l generalizing acc with
  | nil => simpa
  | cons h t ih =>
    by_cases hmem : h ∈ acc
    · simpa only [List.foldl_cons, if_pos hmem] using ih acc hacc
    · simp only [List.foldl_cons, if_neg hmem]
      refine ih _ ?_
      rw [List.nodup_append]
      refine ⟨hacc, by simp, ?_⟩
      intro a ha hb
      rw [List.mem_singleton] at hb
      exact hmem (hb ▸ ha)

theorem dictKeys_nodup (l : List String) : (dictKeys l).Nodup :=
  dictKeys_foldl_nodup l [] List.nodup_nil

theorem hashKeys_nodup (images : List Image) : (hashKeys images).Nodup :=
  dictKeys_nodup _

/-- Splitting a filter over a disjunction of disjoint predicates is a
permutation of the two separate filters. -/
theorem filter_or_perm {α : Type} (l : List α) (p q : α → Bool)
    (hdisj : ∀ x, p x = true → q x = true → False) :
    List.Perm (l.filter (fun x => p x || q x)) (l.filter p ++ l.filter q) := by
  induction l with
  | nil => simp
  | cons x t ih =>
    by_cases hp : p x = true
    · have hq : q x = false := by
        cases hqx : q x
        · rfl
        · exact absurd (hdisj x hp hqx) (fun h => h)
      simpa [List.filter_cons, hp, hq] using ih.cons x
    · have hp2 : p x = false := by simpa using hp
      by_cases hq : q x = true
      · simp only [List.filter_cons, hp2, hq, Bool.false_or, if_pos, cond_true,
          cond_false]
        exact (ih.cons x).trans List.perm_middle.symm
      · have hq2 : q x = false := by simpa using hq
        simpa [List.filter_cons, hp2, hq2] using ih

theorem classOf_hash (images : List Image) (h : String) (i : Image)
    (hi : i ∈ classOf images h) : i.hash = h := by
  have := (List.mem_filter.mp hi).2
  simpa using this

/-- `rawGroups` is exactly the classes of the multi-member keys. -/
theorem rawGroups_eq_map (images : List Image) :
    rawGroups images = (multiKeys images).map (classOf images) := by
  unfold rawGroups multiKeys
  rw [List.filter_map]
  rfl

/-- The filter of a list by membership of a nodup key list is a permutation
of the concatenation of the classes of those keys. -/
theorem filter_keys_perm (images : List Image) :
    ∀ K : List String, K.Nodup →
      List.Perm (images.filter (fun i => decide (i.hash ∈ K)))
        ((K.map (classOf images)).flatten) := by
  intro K
  induction K with
  | nil => simp
  | cons h t ih =>
    intro hnd
    have hnd2 := List.nodup_cons.mp hnd
    have hdisj : ∀ i : Image, decide (i.hash = h) = true →
        decide (i.hash ∈ t) = true → False := by
      intro i h1 h2
      exact hnd2.1 (of_decide_eq_true h1 ▸ of_decide_eq_true h2)
    have hsplit := filter_or_perm images (fun i => decide (i.hash = h))
      (fun i => decide (i.hash ∈ t)) hdisj
    have hcong : images.filter (fun i => decide (i.hash ∈ h :: t)) =
        images.filter (fun i => decide (i.hash = h) || decide (i.hash ∈ t)) := by
      apply List.filter_congr
      intro i _
      simp [List.mem_cons]
    rw [hcong]
    simp only [List.map_cons, List.flatten_cons]
    exact hsplit.trans (List.Perm.append_left _ (ih hnd2.2))

theorem flatten_map_sort_perm (l : List (List Image)) :
    List.Perm ((l.map sortDescBlur).flatten) l.flatten := by
  induction l with
  | nil => rfl
  | cons g t ih => simpa using List.Perm.append (sortDescBlur_perm g) ih

/-- A hash belongs to `processed_hashes` exactly when it is a key with a
multi-member class. -/
theorem processed_iff_multiKeys (images : List Image) (x : String) :
    x ∈ processedHashes (greedy_select_best_images images) ↔
      x ∈ multiKeys images := by
  unfold processedHashes greedy_select_best_images
  constructor
  · intro hx
    rw [List.mem_map] at hx
    obtain ⟨j, hj, hxj⟩ := hx
    rw [List.mem_flatten] at hj
    obtain ⟨g, hg, hjg⟩ := hj
    rw [List.mem_map] at hg
    obtain ⟨g0, hg0, rfl⟩ := hg
    rw [rawGroups_eq_map, List.mem_map] at hg0
    obtain ⟨h, hh, rfl⟩ := hg0
    have hj2 : j ∈ classOf images h :=
      (sortDescBlur_perm (classOf images h)).mem_iff.mp hjg
    have hjh := classOf_hash images h j hj2
    rw [← hxj, hjh]
    exact hh
  · intro hx
    have hlen : 1 < (classOf images x).length := by
      have := (List.mem_filter.mp hx).2
      simpa using this
    obtain ⟨j, hj⟩ := List.exists_mem_of_length_pos (by omega :
      0 < (classOf images x).length)
    rw [List.mem_map]
    refine ⟨j, ?_, classOf_hash images x j hj⟩
    rw [List.mem_flatten]
    refine ⟨sortDescBlur (classOf images x), ?_,
      (sortDescBlur_perm (classOf images x)).mem_iff.mpr hj⟩
    rw [List.mem_map]
    exact ⟨classOf images x, by
      rw [rawGroups_eq_map, List.mem_map]; exact ⟨x, hx, rfl⟩, rfl⟩

/-- The group members plus the pass-through images are a permutation of the
whole (blur-scored) input. -/
theorem exact_partition_perm (images : List Image) :
    List.Perm
      ((greedy_select_best_images images).flatten ++
        images.filter
          (fun i => i.hash ∉ processedHashes (greedy_select_best_images images)))
      images := by
  have h1 : images.filter
      (fun i => decide (i.hash ∈ processedHashes (greedy_select_best_images images)))
      = images.filter (fun i => decide (i.hash ∈ multiKeys images)) := by
    apply List.filter_congr
    intro i _
    simp [processed_iff_multiKeys]
  have h2 := filter_keys_perm images (multiKeys images)
    ((hashKeys_nodup images).filter _)
  have h4 := flatten_map_sort_perm (rawGroups images)
  have h5 : List.Perm ((greedy_select_best_images images).flatten)
      (images.filter
        (fun i => decide (i.hash ∈ processedHashes (greedy_select_best_images images)))) := by
    rw [h1]
    refine (h4.trans ?_).trans h2.symm
    rw [rawGroups_eq_map]
  have h6 : images.filter
      (fun i => i.hash ∉ processedHashes (greedy_select_best_images images))
      = images.filter
        (fun i => !(decide (i.hash ∈ processedHashes (greedy_select_best_images images)))) := by
    apply List.filter_congr
    intro i _
    simp
  rw [h6]
  exact (List.Perm.append_right _ h5).trans (List.filter_append_perm _ images)

theorem greedy_groups_ne_nil (images : List Image) (g : List Image)
    (hg : g ∈ greedy_select_best_images images) : g ≠ [] := by
  unfold greedy_select_best_images at hg
  rw [List.mem_map] at hg
  obtain ⟨g0, hg0, rfl⟩ := hg
  have h2 := rawGroups_two_le images g0 hg0
  intro hnil
  have := sortDescBlur_length g0
  rw [hnil] at this
  simp at this
  omega

theorem markDuplicateGroup_take_one (gid : Nat) (g : List Image)
    (hne : g ≠ []) : ((markDuplicateGroup gid g).take 1).length = 1 := by
  have hlen := sortDescBlur_length g
  have hne2 : sortDescBlur g ≠ [] := by
    intro h
    rw [h] at hlen
    exact hne (List.eq_nil_of_length_eq_zero hlen.symm)
  obtain ⟨b, r, hbr⟩ := List.exists_cons_of_ne_nil hne2
  unfold markDuplicateGroup
  rw [hbr]
  rfl

theorem sum_map_ones {α : Type} (l : List α) (f : α → Nat)
    (hf : ∀ x ∈ l, f x = 1) : (l.map f).sum = l.length := by
  induction l with
  | nil => rfl
  | cons x t ih =>
    simp only [List.map_cons, List.sum_cons, hf x (List.mem_cons_self x t),
      List.length_cons]
    rw [ih (fun y hy => hf y (List.mem_cons_of_mem x hy))]
    omega

theorem kept_length (images : List Image) :
    ((greedy_select_best_images images).enum.flatMap
      (fun p => (markDuplicateGroup (p.1 + 1) p.2).take 1)).length =
      (greedy_select_best_images images).length := by
  rw [List.length_flatMap]
  rw [sum_map_ones]
  · rw [List.enum_length]
  · intro p hp
    have hmem : p.2 ∈ (greedy_select_best_images images).enum.map Prod.snd :=
      List.mem_map_of_mem Prod.snd hp
    rw [List.enum_map_snd] at hmem
    exact markDuplicateGroup_take_one _ _ (greedy_groups_ne_nil images p.2 hmem)

/-! ## Claim C4 -/

/-- C4 (amended): the exact-match resolver does not return the full image
set; its output is one marked representative per duplicate group followed
by the pass-through images (those whose hash is in no group), which appear
unmodified.  The group members plus the pass-through images partition the
blur-scored input, and the output length is the input length minus the
non-representative group members (one representative survives per
group). -/
theorem exact_resolver_output_spec (blurOf : String → Rat)
    (images : List Image) :
    List.Perm
      ((greedy_select_best_images (calculate_blur_scores blurOf images)).flatten
        ++ (calculate_blur_scores blurOf images).filter
          (fun i => i.hash ∉ processedHashes
            (greedy_select_best_images (calculate_blur_scores blurOf images))))
      (calculate_blur_scores blurOf images) ∧
    (filter_blurred_duplicates blurOf images).length +
        (greedy_select_best_images
          (calculate_blur_scores blurOf images)).flatten.length
      = images.length +
        (greedy_select_best_images (calculate_blur_scores blurOf images)).length ∧
    ∀ i ∈ calculate_blur_scores blurOf images,
      i.hash ∉ processedHashes
          (greedy_select_best_images (calculate_blur_scores blurOf images)) →
      i ∈ filter_blurred_duplicates blurOf images := by
  set wb := calculate_blur_scores blurOf images with hwb
  have hperm := exact_partition_perm wb
  refine ⟨hperm, ?_, ?_⟩
  · have hout : filter_blurred_duplicates blurOf images =
        (greedy_select_best_images wb).enum.flatMap
          (fun p => (markDuplicateGroup (p.1 + 1) p.2).take 1) ++
          wb.filter (fun i => i.hash ∉ processedHashes
            (greedy_select_best_images wb)) := rfl
    have hlen1 := kept_length wb
    have hlen2 := hperm.length_eq
    have hlen3 : wb.length = images.length := by
      rw [hwb]
      exact List.length_map images _
    rw [hout, List.length_append, hlen1]
    rw [List.length_append] at hlen2
    omega
  · intro i hi hnp
    have : i ∈ wb.filter (fun i => i.hash ∉ processedHashes
        (greedy_select_best_images wb)) := by
      rw [List.mem_filter]
      exact ⟨hi, decide_eq_true hnp⟩
    exact List.mem_append_right _ this

/-- C4 counterexample: on two images sharing a hash the resolver returns a
single image, so the output is not the full input set. -/
theorem exact_resolver_output_shrinks :
    (filter_blurred_duplicates (fun _ => 1) [imgA, imgB]).length ≠
      ([imgA, imgB] : List Image).length := by decide

/-! ## Claim C5 -/

/-- C5 (amended): after either resolver, only duplicate-group members have
their duplicate fields written, and images outside every group pass through
unmodified; but within the k-th group the representative is not left
untouched: its duplicate flag is (re)assigned `false` and its
duplicate-group reference is set to the fresh group id k+1 just like every
other member, while the non-representatives are marked `true`. -/
theorem resolver_marking_spec :
    (∀ (blurOf : String → Rat) (images : List Image) (k : Nat)
        (g : List Image),
      (exactResolverGroups blurOf images).get? k = some g →
      ∃ best rest, g = best :: rest ∧ best.is_duplicate = false ∧
        best.duplicate_group = some (k + 1) ∧
        ∀ i ∈ rest, i.is_duplicate = true ∧ i.duplicate_group = some (k + 1)) ∧
    (∀ (groups : List (List Image)) (k : Nat) (g : List Image),
      (graphResolverGroups groups).get? k = some g → g ≠ [] →
      ∃ best rest, g = best :: rest ∧ best.is_duplicate = false ∧
        best.duplicate_group = some (k + 1) ∧
        ∀ i ∈ rest, i.is_duplicate = true ∧ i.duplicate_group = some (k + 1)) ∧
    (∀ (blurOf : String → Rat) (images : List Image),
      ∀ i ∈ calculate_blur_scores blurOf images,
        i.hash ∉ processedHashes
          (greedy_select_best_images (calculate_blur_scores blurOf images)) →
        i ∈ filter_blurred_duplicates blurOf images) := by
  refine ⟨?_, ?_, ?_⟩
  · intro blurOf images k g hk
    unfold exactResolverGroups at hk
    rw [List.get?_map, List.get?_enum] at hk
    cases hg1 : (greedy_select_best_images
        (calculate_blur_scores blurOf images)).get? k with
    | none => rw [hg1] at hk; simp at hk
    | some g1 =>
      rw [hg1] at hk
      simp only [Option.map_some', Option.some_inj, Function.comp_apply] at hk
      have hmem : g1 ∈ greedy_select_best_images
          (calculate_blur_scores blurOf images) := List.get?_mem hg1
      have hne := greedy_groups_ne_nil _ _ hmem
      have hlen := sortDescBlur_length g1
      have hne2 : sortDescBlur g1 ≠ [] := by
        intro h
        rw [h] at hlen
        exact hne (List.eq_nil_of_length_eq_zero hlen.symm)
      obtain ⟨b, r, hbr⟩ := List.exists_cons_of_ne_nil hne2
      rw [← hk]
      unfold markDuplicateGroup
      rw [hbr]
      refine ⟨_, _, rfl, rfl, rfl, ?_⟩
      intro i hi
      rw [List.mem_map] at hi
      obtain ⟨j, _, rfl⟩ := hi
      exact ⟨rfl, rfl⟩
  · intro groups k g hk hne
    unfold graphResolverGroups at hk
    rw [List.get?_map, List.get?_enum] at hk
    cases hg1 : groups.get? k with
    | none => rw [hg1] at hk; simp at hk
    | some g1 =>
      rw [hg1] at hk
      simp only [Option.map_some', Option.some_inj, Function.comp_apply] at hk
      cases g1 with
      | nil => rw [← hk] at hne; exact absurd rfl hne
      | cons b r =>
        rw [← hk]
        refine ⟨_, _, rfl, rfl, rfl, ?_⟩
        intro i hi
        rw [List.mem_map] at hi
        obtain ⟨j, _, rfl⟩ := hi
        exact ⟨rfl, rfl⟩
  · intro blurOf images i hi hnp
    have : i ∈ (calculate_blur_scores blurOf images).filter
        (fun i => i.hash ∉ processedHashes
          (greedy_select_best_images (calculate_blur_scores blurOf images))) := by
      rw [List.mem_filter]
      exact ⟨hi, decide_eq_true hnp⟩
    exact List.mem_append_right _ this

/-- C5 counterexample: the representative of the only group of
`[imgA, imgB]` starts with a null duplicate-group reference and ends with
it set to the fresh group id 1, so the representative is not left unchanged
in that field. -/
theorem representative_reference_is_written :
    ((exactResolverGroups (fun _ => 1) [imgA, imgB]).headI.headI).duplicate_group
        = some 1 ∧
      imgA.duplicate_group = none ∧ imgB.duplicate_group = none := by decide

/-! ## Claim C3 -/

theorem haversine_self (la lo : ℝ) : haversine_distance la lo la lo = 0 := by
  unfold haversine_distance
  simp [Real.sqrt_zero, Real.arcsin_zero]

theorem calculate_gps_distance_self (x : Image) (la lo : Rat)
    (hla : x.latitude = some la) (hlo : x.longitude = some lo) :
    calculate_gps_distance x x = ((0 : ℝ) : WithTop ℝ) := by
  unfold calculate_gps_distance
  rw [hla, hlo]
  have : (((haversine_distance la lo la lo : ℝ)) : WithTop ℝ) =
      ((0 : ℝ) : WithTop ℝ) := by rw [haversine_self]
  exact this

theorem calculate_time_difference_self (x : Image) (t : PyDateTime)
    (ht : x.timestamp = some t) :
    calculate_time_difference x x = ((0 : ℝ) : WithTop ℝ) := by
  unfold calculate_time_difference
  rw [ht]
  norm_num

/-- C3 (amended): the self-distance of an image is 0 exactly for images
carrying both GPS coordinates and a timestamp; when either attribute is
missing, the infinite component is replaced by the 1000 sentinel, which
saturates the corresponding normalized term to 1, so the self-distance is
0.6, 0.4 or 1 rather than 0. -/
theorem combined_distance_self_zero (x : Image) (la lo : Rat) (t : PyDateTime)
    (hla : x.latitude = some la) (hlo : x.longitude = some lo)
    (ht : x.timestamp = some t) :
    combined_distance x x = 0 := by
  unfold combined_distance
  rw [calculate_gps_distance_self x la lo hla hlo,
    calculate_time_difference_self x t ht]
  norm_num

/-- C3 witness: a concrete image with GPS and timestamp has self-distance
0. -/
theorem combined_distance_self_zero_witness :
    imgNYC.latitude = some 40 ∧ imgNYC.longitude = some (-74) ∧
      imgNYC.timestamp = some ⟨2025, 1, 1, 0⟩ ∧
      combined_distance imgNYC imgNYC = 0 :=
  ⟨rfl, rfl, rfl,
    combined_distance_self_zero imgNYC 40 (-74) ⟨2025, 1, 1, 0⟩ rfl rfl rfl⟩

/-- C3 counterexample: an image with neither GPS nor timestamp has
self-distance 1, not 0 — the claim fails for images missing metadata. -/
theorem combined_distance_self_missing_metadata :
    combined_distance imgBare imgBare = 1 ∧ (1 : ℝ) ≠ 0 := by
  constructor
  · simp only [combined_distance, calculate_gps_distance,
      calculate_time_difference, imgBare]
    rw [show min ((1000 : ℝ) / 10) 1 = 1 from min_eq_right (by norm_num),
      show min ((1000 : ℝ) / 24) 1 = 1 from min_eq_right (by norm_num)]
    norm_num
  · norm_num

/-! ## Claim C6 -/

/-- Evaluation of the generated cluster name on a non-empty input. -/
theorem metadata_name_eval (images : List Image) (hne : images ≠ []) :
    (calculate_cluster_metadata images).name =
      (match pyMinTime (validTimes images) with
        | some t => locationName (centroidOf images) ++ "_" ++ formatDate t
        | none => locationName (centroidOf images) ++ "_cluster") := by
  unfold calculate_cluster_metadata
  rw [if_neg hne]

theorem centroid_far_evaluates :
    centroidOf [imgFar] = some (0, 0) ∧ ¬ nearNYC 0 0 ∧ ¬ nearLA 0 0 := by
  refine ⟨?_, ?_, ?_⟩
  · simp [centroidOf, validCoords, imgFar]
  · intro h
    have h1 := (abs_lt.mp h.1).1
    norm_num at h1
  · intro h
    have h1 := (abs_lt.mp h.1).1
    norm_num at h1

/-- C6 (amended): for a non-empty final cluster, the generated name is the
location label followed by the start date when a time span exists and by
"_cluster" otherwise; the label is "Unknown" only when no centroid exists,
while a centroid that is near neither reference location yields the literal
label ".1f" (a mangled format string in the source), not "Unknown". -/
theorem cluster_name_spec (images : List Image) (hne : images ≠ []) :
    (centroidOf images = none → pyMinTime (validTimes images) = none →
        (calculate_cluster_metadata images).name = "Unknown_cluster") ∧
      (∀ t, centroidOf images = none → pyMinTime (validTimes images) = some t →
        (calculate_cluster_metadata images).name = "Unknown_" ++ formatDate t) ∧
      (∀ la lo, centroidOf images = some (la, lo) → ¬ nearNYC la lo →
        ¬ nearLA la lo →
        (pyMinTime (validTimes images) = none →
            (calculate_cluster_metadata images).name = ".1f_cluster") ∧
          (∀ t, pyMinTime (validTimes images) = some t →
            (calculate_cluster_metadata images).name = ".1f_" ++ formatDate t)) := by
  have hname := metadata_name_eval images hne
  refine ⟨?_, ?_, ?_⟩
  · intro hc ht
    rw [hname, ht, hc]
    rfl
  · intro t hc ht
    rw [hname, ht, hc]
    rfl
  · intro la lo hc hnyc hla
    constructor
    · intro ht
      rw [hname, ht, hc]
      show (if nearNYC la lo then "NYC"
        else if nearLA la lo then "LA" else ".1f") ++ "_cluster" = ".1f_cluster"
      rw [if_neg hnyc, if_neg hla]
      rfl
    · intro t ht
      rw [hname, ht, hc]
      show (if nearNYC la lo then "NYC"
          else if nearLA la lo then "LA" else ".1f") ++ "_" ++ formatDate t =
        ".1f_" ++ formatDate t
      rw [if_neg hnyc, if_neg hla]
      rfl

/-- C6 witness: a singleton cluster at (0,0) with no timestamps has a
centroid far from both references and is named ".1f_cluster". -/
theorem cluster_name_spec_witness :
    ([imgFar] : List Image) ≠ [] ∧
      (calculate_cluster_metadata [imgFar]).name = ".1f_cluster" := by
  obtain ⟨hc, hnyc, hla⟩ := centroid_far_evaluates
  exact ⟨by simp,
    ((cluster_name_spec [imgFar] (by simp)).2.2 0 0 hc hnyc hla).1 rfl⟩

/-- C6 counterexample: the cluster at (0,0) — centroid present, far from
NYC and LA — is named ".1f_cluster", not "Unknown_cluster" as the claim
requires. -/
theorem cluster_name_far_not_unknown :
    (calculate_cluster_metadata [imgFar]).name = ".1f_cluster" ∧
      (calculate_cluster_metadata [imgFar]).name ≠ "Unknown_cluster" := by
  obtain ⟨hc, hnyc, hla⟩ := centroid_far_evaluates
  have hname := metadata_name_eval [imgFar] (by simp)
  have : (calculate_cluster_metadata [imgFar]).name = ".1f_cluster" := by
    rw [hname]
    show locationName (centroidOf [imgFar]) ++ "_cluster" = ".1f_cluster"
    rw [hc]
    show (if nearNYC 0 0 then "NYC"
      else if nearLA 0 0 then "LA" else ".1f") ++ "_cluster" = ".1f_cluster"
    rw [if_neg hnyc, if_neg hla]
    rfl
  refine ⟨this, ?_⟩
  rw [this]
  decide

/-! ## Claim C10 -/

/-- C10: a pair of hash strings that cannot be decoded to compatible bit
vectors (either fails to decode, or the decoded shapes differ) gets the
sentinel distance 999, so for every threshold below 999 such a pair never
satisfies the edge condition of the similarity graph. -/
theorem hash_distance_sentinel (h1 h2 : String)
    (hbad : hex_to_hash h1 = none ∨ hex_to_hash h2 = none ∨
      ∀ b1 b2, hex_to_hash h1 = some b1 → hex_to_hash h2 = some b2 →
        b1.length ≠ b2.length) :
    calculate_hash_distance h1 h2 = 999 ∧
      ∀ t, t < 999 → ∀ a b : Image, a.hash = h1 → b.hash = h2 →
        ¬ edgeCond t a b := by
  have h999 : calculate_hash_distance h1 h2 = 999 := by
    unfold calculate_hash_distance
    cases hd1 : hex_to_hash h1 with
    | none => rfl
    | some b1 =>
      cases hd2 : hex_to_hash h2 with
      | none => rfl
      | some b2 =>
        show (if b1.length = b2.length then hammingDist b1 b2 else 999) = 999
        rcases hbad with hb | hb | hb
        · rw [hd1] at hb
          exact absurd hb (by simp)
        · rw [hd2] at hb
          exact absurd hb (by simp)
        · rw [if_neg (hb b1 b2 hd1 hd2)]
  refine ⟨h999, ?_⟩
  intro t ht a b ha hb hedge
  obtain ⟨_, _, hle⟩ := hedge
  rw [ha, hb, h999] at hle
  omega

/-- C10 witness: "zz" is undecodable, the pair ("zz", "0000") gets distance
999, and at the default threshold 10 the corresponding images get no
edge. -/
theorem hash_distance_sentinel_witness :
    hex_to_hash "zz" = none ∧ calculate_hash_distance "zz" "0000" = 999 ∧
      ¬ edgeCond 10 imgBadHash imgX := by
  have h := hash_distance_sentinel "zz" "0000" (Or.inl (by decide))
  exact ⟨by decide, h.1, h.2 10 (by omega) imgBadHash imgX rfl rfl⟩

/-! ## Claim C2 -/

theorem listPairs_mem {α : Type} (l : List α) (a b : α) (ha : a ∈ l)
    (hb : b ∈ l) (hab : a ≠ b) :
    (a, b) ∈ listPairs l ∨ (b, a) ∈ listPairs l := by
  induction l with
  | nil => cases ha
  | cons x xs ih =>
    rcases List.mem_cons.mp ha with rfl | ha2
    · rcases List.mem_cons.mp hb with rfl | hb2
      · exact absurd rfl hab
      · left
        unfold listPairs
        exact List.mem_append_left _ (List.mem_map_of_mem _ hb2)
    · rcases List.mem_cons.mp hb with rfl | hb2
      · right
        unfold listPairs
        exact List.mem_append_left _ (List.mem_map_of_mem _ ha2)
      · rcases ih ha2 hb2 with h | h
        · left
          unfold listPairs
          exact List.mem_append_right _ h
        · right
          unfold listPairs
          exact List.mem_append_right _ h

theorem hammingDist_comm (a b : List Bool) : hammingDist a b = hammingDist b a := by
  induction a generalizing b with
  | nil => cases b <;> simp [hammingDist]
  | cons x xs ih =>
    cases b with
    | nil => simp [hammingDist]
    | cons y ys =>
      simp only [hammingDist, List.zip_cons_cons, List.countP_cons] at *
      rw [ih ys]
      by_cases hxy : x = y
      · subst hxy
        simp
      · have hyx : ¬ y = x := fun h => hxy h.symm
        simp [hxy, hyx]

theorem hash_distance_comm (h1 h2 : String) :
    calculate_hash_distance h1 h2 = calculate_hash_distance h2 h1 := by
  unfold calculate_hash_distance
  cases hd1 : hex_to_hash h1 with
  | none => cases hex_to_hash h2 <;> rfl
  | some b1 =>
    cases hd2 : hex_to_hash h2 with
    | none => rfl
    | some b2 =>
      show (if b1.length = b2.length then hammingDist b1 b2 else 999) =
        (if b2.length = b1.length then hammingDist b2 b1 else 999)
      by_cases hlen : b1.length = b2.length
      · rw [if_pos hlen, if_pos hlen.symm, hammingDist_comm]
      · rw [if_neg hlen, if_neg (fun h => hlen h.symm)]

theorem adjacent_of_edgeCond (images : List Image) (t : Nat) (a b : Image)
    (ha : a ∈ images) (hb : b ∈ images) (hab : a ≠ b)
    (he : edgeCond t a b) : adjacent images t a.id b.id := by
  rcases listPairs_mem images a b ha hb hab with h | h
  · exact ⟨⟨a.id, b.id, calculate_hash_distance a.hash b.hash,
      1 / (calculate_hash_distance a.hash b.hash + 1)⟩,
      List.mem_filterMap.mpr ⟨(a, b), h, by rw [if_pos he]⟩,
      Or.inl ⟨rfl, rfl⟩⟩
  · have he2 : edgeCond t b a := ⟨he.2.1, he.1, by
      rw [hash_distance_comm]
      exact he.2.2⟩
    exact ⟨⟨b.id, a.id, calculate_hash_distance b.hash a.hash,
      1 / (calculate_hash_distance b.hash a.hash + 1)⟩,
      List.mem_filterMap.mpr ⟨(b, a), h, by rw [if_pos he2]⟩,
      Or.inr ⟨rfl, rfl⟩⟩

theorem adjacent_symm (images : List Image) (t : Nat) :
    Symmetric (adjacent images t) := by
  rintro u v ⟨e, he, hor⟩
  exact ⟨e, he, hor.symm⟩

/-- C2: for images A, B, C in the input with non-empty hashes and distinct
ids, if the A-B and B-C hash distances are within the threshold, then the
similarity graph places all three pairs in the same duplicate group — the
connected component containing them has at least two nodes — regardless of
the A-C distance (which may exceed the threshold). -/
theorem graph_resolver_transitive (images : List Image) (t : Nat)
    (A B C : Image) (hA : A ∈ images) (hB : B ∈ images) (hC : C ∈ images)
    (hAh : A.hash ≠ "") (hBh : B.hash ≠ "") (hCh : C.hash ≠ "")
    (hABid : A.id ≠ B.id) (hBCid : B.id ≠ C.id)
    (hAB : calculate_hash_distance A.hash B.hash ≤ t)
    (hBC : calculate_hash_distance B.hash C.hash ≤ t) :
    inSameDuplicateGroup images t A B ∧ inSameDuplicateGroup images t B C ∧
      inSameDuplicateGroup images t A C := by
  have hABne : A ≠ B := fun h => hABid (by rw [h])
  have hBCne : B ≠ C := fun h => hBCid (by rw [h])
  have eAB : adjacent images t A.id B.id :=
    adjacent_of_edgeCond images t A B hA hB hABne ⟨hAh, hBh, hAB⟩
  have eBC : adjacent images t B.id C.id :=
    adjacent_of_edgeCond images t B C hB hC hBCne ⟨hBh, hCh, hBC⟩
  have sAB : sameComponent images t A.id B.id := Relation.ReflTransGen.single eAB
  have sBC : sameComponent images t B.id C.id := Relation.ReflTransGen.single eBC
  have sAC : sameComponent images t A.id C.id := sAB.trans sBC
  exact ⟨⟨sAB, A.id, B.id, hABid, Relation.ReflTransGen.refl, sAB⟩,
    ⟨sBC, B.id, C.id, hBCid, Relation.ReflTransGen.refl, sBC⟩,
    ⟨sAC, A.id, B.id, hABid, Relation.ReflTransGen.refl, sAB⟩⟩

/-- C2 witness: three concrete images whose hash distances are
X-Y = 1 ≤ 1, Y-Z = 1 ≤ 1 but X-Z = 2 > 1 all land in one duplicate group
at threshold 1. -/
theorem graph_resolver_transitive_witness :
    calculate_hash_distance imgX.hash imgY.hash ≤ 1 ∧
      calculate_hash_distance imgY.hash imgZ.hash ≤ 1 ∧
      1 < calculate_hash_distance imgX.hash imgZ.hash ∧
      inSameDuplicateGroup [imgX, imgY, imgZ] 1 imgX imgZ :=
  ⟨by decide, by decide, by decide,
    (graph_resolver_transitive [imgX, imgY, imgZ] 1 imgX imgY imgZ
      (by decide) (by decide) (by decide) (by decide) (by decide) (by decide)
      (by decide) (by decide) (by decide) (by decide)).2.2⟩

/-! ## Claim C9 -/

theorem applyOp_preserves_mark (s : DB) (op : PipelineOp) (i : Nat)
    (hlt : i < s.nextImageId)
    (hmark : ∀ img ∈ s.images, img.id = some i → img.is_duplicate = true) :
    i < (applyOp s op).nextImageId ∧
      ∀ img ∈ (applyOp s op).images, img.id = some i →
        img.is_duplicate = true := by
  cases op with
  | addImage img =>
    refine ⟨by simp [applyOp]; omega, ?_⟩
    intro r hr hid
    simp only [applyOp, List.mem_append, List.mem_singleton] at hr
    rcases hr with hr | hr
    · exact hmark r hr hid
    · subst hr
      simp only at hid
      rw [Option.some_inj] at hid
      omega
  | updateImageCluster j c =>
    refine ⟨hlt, ?_⟩
    intro r hr hid
    simp only [applyOp, List.mem_map] at hr
    obtain ⟨r0, hr0, rfl⟩ := hr
    by_cases hj : r0.id = some j
    · rw [if_pos hj] at hid ⊢
      exact hmark r0 hr0 hid
    · rw [if_neg hj] at hid ⊢
      exact hmark r0 hr0 hid
  | updateImageBlurScore j b =>
    refine ⟨hlt, ?_⟩
    intro r hr hid
    simp only [applyOp, List.mem_map] at hr
    obtain ⟨r0, hr0, rfl⟩ := hr
    by_cases hj : r0.id = some j
    · rw [if_pos hj] at hid ⊢
      exact hmark r0 hr0 hid
    · rw [if_neg hj] at hid ⊢
      exact hmark r0 hr0 hid
  | markAsDuplicate j g =>
    refine ⟨hlt, ?_⟩
    intro r hr hid
    simp only [applyOp, List.mem_map] at hr
    obtain ⟨r0, hr0, rfl⟩ := hr
    by_cases hj : r0.id = some j
    · rw [if_pos hj]
    · rw [if_neg hj] at hid ⊢
      exact hmark r0 hr0 hid
  | saveDuplicateGroup grp => exact ⟨hlt, hmark⟩
  | addCluster c => exact ⟨hlt, hmark⟩
  | updateClusterImageCount j n => exact ⟨hlt, hmark⟩

/-- C9: once an image row is marked duplicate in storage, no sequence of
the pipeline storage operations ever resets its persisted duplicate flag
(database.py exposes no unmark operation: `mark_as_duplicate` only writes
TRUE, and inserts create fresh ids); in particular the storage trace of the
graph resolver — which resets a representative only on the in-memory
record — leaves a previously marked row marked. -/
theorem marked_duplicate_persists :
    (∀ (ops : List PipelineOp) (s : DB) (i : Nat), i < s.nextImageId →
      (∀ img ∈ s.images, img.id = some i → img.is_duplicate = true) →
      i < (applyOps s ops).nextImageId ∧
        ∀ img ∈ (applyOps s ops).images, img.id = some i →
          img.is_duplicate = true) ∧
    (∀ (groups : List (List Image)) (s : DB) (i : Nat), i < s.nextImageId →
      (∀ img ∈ s.images, img.id = some i → img.is_duplicate = true) →
      ∀ img ∈ (applyOps s (graphResolverDbOps groups)).images,
        img.id = some i → img.is_duplicate = true) := by
  have main : ∀ (ops : List PipelineOp) (s : DB) (i : Nat),
      i < s.nextImageId →
      (∀ img ∈ s.images, img.id = some i → img.is_duplicate = true) →
      i < (applyOps s ops).nextImageId ∧
        ∀ img ∈ (applyOps s ops).images, img.id = some i →
          img.is_duplicate = true := by
    intro ops
    induction ops with
    | nil => exact fun s i h1 h2 => ⟨h1, h2⟩
    | cons op ops ih =>
      intro s i h1 h2
      have hstep := applyOp_preserves_mark s op i h1 h2
      have hrest := ih (applyOp s op) i hstep.1 hstep.2
      simpa [applyOps] using hrest
  exact ⟨main, fun groups s i h1 h2 => (main (graphResolverDbOps groups) s i h1 h2).2⟩

/-- C9 witness: in a state where image 1 is marked, a blur-score update
followed by a fresh insert leaves image 1 marked. -/
theorem marked_duplicate_persists_witness :
    1 < dbS0.nextImageId ∧
      ∀ img ∈ (applyOps dbS0 [PipelineOp.updateImageBlurScore 1 3,
          PipelineOp.addImage {}]).images,
        img.id = some 1 → img.is_duplicate = true :=
  ⟨by decide,
    (marked_duplicate_persists.1
      [PipelineOp.updateImageBlurScore 1 3, PipelineOp.addImage {}]
      dbS0 1 (by decide) (by decide)).2⟩

/-! ## Helper lemmas: the merge loop preserves the image multiset (C7) -/

theorem keys_appendAt (k : Nat) (v : List Image) (cs : List (Nat × List Image)) :
    (appendAt k v cs).map Prod.fst = cs.map Prod.fst := by
  unfold appendAt
  rw [List.map_map]
  apply List.map_congr_left
  intro q _
  by_cases h : q.1 = k <;> simp [h]

theorem appendAt_of_not_mem (k : Nat) (v : List Image)
    (cs : List (Nat × List Image)) (hk : k ∉ cs.map Prod.fst) :
    appendAt k v cs = cs := by
  induction cs with
  | nil => rfl
  | cons q t ih =>
    simp only [List.map_cons, List.mem_cons] at hk
    push_neg at hk
    have hq : q.1 ≠ k := fun h => hk.1 h.symm
    simp only [appendAt, List.map_cons, if_neg hq]
    have := ih hk.2
    unfold appendAt at this
    rw [this]

theorem clusterVals_appendAt (k : Nat) (v : List Image)
    (cs : List (Nat × List Image)) (hnd : (cs.map Prod.fst).Nodup)
    (hk : k ∈ cs.map Prod.fst) :
    List.Perm (clusterVals (appendAt k v cs)) (clusterVals cs ++ v) := by
  induction cs with
  | nil => cases hk
  | cons q t ih =>
    simp only [List.map_cons, List.nodup_cons] at hnd
    by_cases hq : q.1 = k
    · have hnt : k ∉ t.map Prod.fst := hq ▸ hnd.1
      simp only [appendAt, List.map_cons, if_pos hq]
      have ht : appendAt k v t = t := appendAt_of_not_mem k v t hnt
      unfold appendAt at ht
      rw [ht]
      show List.Perm ((q.2 ++ v) ++ clusterVals t) ((q.2 ++ clusterVals t) ++ v)
      rw [List.append_assoc, List.append_assoc]
      exact List.Perm.append_left q.2 (List.perm_append_comm)
    · have hkt : k ∈ t.map Prod.fst := by
        rcases List.mem_cons.mp hk with h | h
        · exact absurd h.symm hq
        · exact h
      simp only [appendAt, List.map_cons, if_neg hq]
      have := ih hnd.2 hkt
      unfold appendAt at this
      show List.Perm (q.2 ++ clusterVals
        (t.map fun p => if p.1 = k then (p.1, p.2 ++ v) else p))
        ((q.2 ++ clusterVals t) ++ v)
      rw [List.append_assoc]
      exact List.Perm.append_left q.2 this

theorem lookup_appendAt (c1 c2 : Nat) (v : List Image)
    (cs : List (Nat × List Image)) (hne : c2 ≠ c1) :
    lookupKey c2 (appendAt c1 v cs) = lookupKey c2 cs := by
  induction cs with
  | nil => rfl
  | cons q t ih =>
    show lookupKey c2 ((if q.1 = c1 then (q.1, q.2 ++ v) else q) ::
      appendAt c1 v t) = _
    by_cases hq : q.1 = c1
    · rw [if_pos hq]
      have hq2 : ¬ (q.1 = c2) := fun h => hne (h ▸ hq ▸ rfl)
      show (if q.1 = c2 then some (q.2 ++ v) else lookupKey c2 (appendAt c1 v t))
        = lookupKey c2 (q :: t)
      rw [if_neg hq2, ih]
      show _ = if q.1 = c2 then some q.2 else lookupKey c2 t
      rw [if_neg hq2]
    · rw [if_neg hq]
      show (if q.1 = c2 then some q.2 else lookupKey c2 (appendAt c1 v t)) =
        if q.1 = c2 then some q.2 else lookupKey c2 t
      by_cases hc : q.1 = c2
      · rw [if_pos hc, if_pos hc]
      · rw [if_neg hc, if_neg hc, ih]

theorem lookup_of_mem_keys (k : Nat) (cs : List (Nat × List Image))
    (hk : k ∈ cs.map Prod.fst) : ∃ v, lookupKey k cs = some v := by
  induction cs with
  | nil => cases hk
  | cons q t ih =>
    show ∃ v, (if q.1 = k then some q.2 else lookupKey k t) = some v
    by_cases hq : q.1 = k
    · exact ⟨q.2, by rw [if_pos hq]⟩
    · rw [if_neg hq]
      rcases List.mem_cons.mp hk with h | h
      · exact absurd h.symm hq
      · exact ih h

theorem removeKey_of_not_mem (k : Nat) (cs : List (Nat × List Image))
    (hk : k ∉ cs.map Prod.fst) : removeKey k cs = cs := by
  unfold removeKey
  apply List.filter_eq_self.mpr
  intro q hq
  have : q.1 ∈ cs.map Prod.fst := List.mem_map_of_mem Prod.fst hq
  exact decide_eq_true (fun h => hk (h ▸ this))

theorem clusterVals_removeKey (k : Nat) (cs : List (Nat × List Image))
    (hnd : (cs.map Prod.fst).Nodup) :
    List.Perm (clusterVals (removeKey k cs) ++ (lookupKey k cs).getD [])
      (clusterVals cs) := by
  induction cs with
  | nil => simp [removeKey, clusterVals, lookupKey]
  | cons q t ih =>
    simp only [List.map_cons, List.nodup_cons] at hnd
    by_cases hq : q.1 = k
    · have hnt : k ∉ t.map Prod.fst := hq ▸ hnd.1
      have hrt : removeKey k t = t := removeKey_of_not_mem k t hnt
      have hlk : lookupKey k (q :: t) = some q.2 := by
        show (if q.1 = k then some q.2 else lookupKey k t) = some q.2
        rw [if_pos hq]
      have hrem : removeKey k (q :: t) = t := by
        show List.filter _ (q :: t) = t
        rw [List.filter_cons]
        rw [if_neg (by simp [hq])]
        exact hrt
      rw [hrem, hlk]
      show List.Perm (clusterVals t ++ q.2) (q.2 ++ clusterVals t)
      exact List.perm_append_comm
    · have hlk : lookupKey k (q :: t) = lookupKey k t := by
        show (if q.1 = k then some q.2 else lookupKey k t) = lookupKey k t
        rw [if_neg hq]
      have hrem : removeKey k (q :: t) = q :: removeKey k t := by
        show List.filter _ (q :: t) = _
        rw [List.filter_cons]
        rw [if_pos (by simp [hq])]
        rfl
      rw [hrem, hlk]
      show List.Perm ((q.2 ++ clusterVals (removeKey k t)) ++
        (lookupKey k t).getD []) (q.2 ++ clusterVals t)
      rw [List.append_assoc]
      exact List.Perm.append_left q.2 (ih hnd.2)

theorem keys_removeKey (k : Nat) (cs : List (Nat × List Image)) :
    (removeKey k cs).map Prod.fst = (cs.map Prod.fst).filter (fun x => x ≠ k) := by
  unfold removeKey
  induction cs with
  | nil => rfl
  | cons q t ih =>
    simp only [List.filter_cons, List.map_cons]
    by_cases hq : q.1 = k
    · simp only [hq, decide_eq_true_eq]
      rw [if_neg (fun h : k ≠ k => h rfl), if_neg (fun h : k ≠ k => h rfl)]
      exact ih
    · simp only [decide_eq_true_eq]
      rw [if_pos hq, if_pos hq, List.map_cons]
      rw [ih]

theorem clusterVals_merge (cs : List (Nat × List Image)) (c1 c2 : Nat)
    (hnd : (cs.map Prod.fst).Nodup) (h1 : c1 ∈ cs.map Prod.fst)
    (h2 : c2 ∈ cs.map Prod.fst) (hne : c1 ≠ c2) :
    List.Perm (clusterVals (mergeClusters cs c1 c2)) (clusterVals cs) := by
  have hkeys1 := keys_appendAt c1 ((lookupKey c2 cs).getD []) cs
  have hnd1 : ((appendAt c1 ((lookupKey c2 cs).getD []) cs).map Prod.fst).Nodup := by
    rw [hkeys1]
    exact hnd
  have h2v := lookup_appendAt c1 c2 ((lookupKey c2 cs).getD []) cs
    (fun h => hne h.symm)
  have hrem := clusterVals_removeKey c2
    (appendAt c1 ((lookupKey c2 cs).getD []) cs) hnd1
  rw [h2v] at hrem
  have happ := clusterVals_appendAt c1 ((lookupKey c2 cs).getD []) cs hnd h1
  have hchain : List.Perm (clusterVals (mergeClusters cs c1 c2) ++
      (lookupKey c2 cs).getD []) (clusterVals cs ++ (lookupKey c2 cs).getD []) := by
    unfold mergeClusters
    exact hrem.trans happ
  exact (List.perm_append_right_iff _).mp hchain

theorem keys_merge (cs : List (Nat × List Image)) (c1 c2 : Nat) :
    (mergeClusters cs c1 c2).map Prod.fst =
      (cs.map Prod.fst).filter (fun x => x ≠ c2) := by
  unfold mergeClusters
  rw [keys_removeKey, keys_appendAt]

theorem foldl_closest_mem (f : Nat × Nat → WithTop ℝ) :
    ∀ (pairs : List (Nat × Nat)) (acc : WithTop ℝ × Option (Nat × Nat))
      (p : Nat × Nat),
      (pairs.foldl (fun a q => if f q < a.1 then (f q, some q) else a) acc).2 =
        some p →
      p ∈ pairs ∨ acc.2 = some p := by
  intro pairs
  induction pairs with
  | nil => exact fun acc p h => Or.inr h
  | cons q qs ih =>
    intro acc p h
    rw [List.foldl_cons] at h
    rcases ih _ p h with hmem | hacc
    · exact Or.inl (List.mem_cons_of_mem q hmem)
    · by_cases hlt : f q < acc.1
      · rw [if_pos hlt] at hacc
        simp only [Option.some_inj] at hacc
        exact Or.inl (hacc ▸ List.mem_cons_self q qs)
      · rw [if_neg hlt] at hacc
        exact Or.inr hacc

theorem closestPair_mem (images : List Image) (cs : List (Nat × List Image))
    (p : Nat × Nat) (h : (closestPair images cs).2 = some p) :
    p ∈ orderedKeyPairs cs := by
  have := foldl_closest_mem
    (fun q => clusterPairDist images ((lookupKey q.1 cs).getD [])
      ((lookupKey q.2 cs).getD []))
    (orderedKeyPairs cs) (⊤, none) p h
  rcases this with hmem | habs
  · exact hmem
  · cases habs

theorem orderedKeyPairs_mem (cs : List (Nat × List Image)) (p : Nat × Nat)
    (h : p ∈ orderedKeyPairs cs) :
    p.1 ∈ cs.map Prod.fst ∧ p.2 ∈ cs.map Prod.fst ∧ p.1 < p.2 := by
  unfold orderedKeyPairs at h
  rw [List.mem_flatMap] at h
  obtain ⟨a, ha, h2⟩ := h
  rw [List.mem_filterMap] at h2
  obtain ⟨b, hb, hif⟩ := h2
  by_cases hab : a < b
  · rw [if_pos hab, Option.some_inj] at hif
    subst hif
    exact ⟨ha, hb, hab⟩
  · rw [if_neg hab] at hif
    cases hif

theorem hloop_perm (images : List Image) (θ : ℝ) (maxC : Option Nat) :
    ∀ (fuel : Nat) (cs : List (Nat × List Image)),
      (cs.map Prod.fst).Nodup →
      List.Perm (clusterVals (hloop images θ maxC fuel cs)) (clusterVals cs) := by
  intro fuel
  induction fuel with
  | zero => exact fun cs _ => List.Perm.refl _
  | succ n ih =>
    intro cs hnd
    rw [hloop]
    by_cases h1 : cs.length ≤ 1
    · rw [if_pos h1]
    · rw [if_neg h1]
      by_cases h2 : (θ : WithTop ℝ) < (closestPair images cs).1
      · rw [if_pos h2]
      · rw [if_neg h2]
        by_cases h3 : maxClustersReached maxC cs.length = true
        · rw [if_pos h3]
        · rw [if_neg h3]
          cases hcp : (closestPair images cs).2 with
          | none =>
            simp only [hcp]
            exact ih cs hnd
          | some p =>
            simp only [hcp]
            have hp := closestPair_mem images cs p hcp
            obtain ⟨hp1, hp2, hplt⟩ := orderedKeyPairs_mem cs p hp
            have hne : p.1 ≠ p.2 := Nat.ne_of_lt hplt
            have hnd2 : ((mergeClusters cs p.1 p.2).map Prod.fst).Nodup := by
              rw [keys_merge]
              exact hnd.filter _
            exact (ih _ hnd2).trans (clusterVals_merge cs p.1 p.2 hnd hp1 hp2 hne)

theorem flatten_map_singleton (l : List Image) :
    (l.map (fun a => [a])).flatten = l := by
  induction l with
  | nil => rfl
  | cons x t ih => simp [ih]

theorem initClusters_keys (images : List Image) :
    (initClusters images).map Prod.fst = List.range images.length := by
  unfold initClusters
  rw [List.map_map]
  have heq : (Prod.fst ∘ fun p : Nat × Image => (p.1, [p.2])) = Prod.fst :=
    funext fun p => rfl
  rw [heq, List.enum_map_fst]

theorem initClusters_vals (images : List Image) :
    clusterVals (initClusters images) = images := by
  unfold initClusters clusterVals
  rw [List.map_map]
  have heq : (Prod.snd ∘ fun p : Nat × Image => (p.1, [p.2])) =
      ((fun a => [a]) ∘ Prod.snd) := funext fun p => rfl
  rw [heq, ← List.map_map, List.enum_map_snd, flatten_map_singleton]

theorem renumber_keys (cs : List (Nat × List Image)) :
    (renumber cs).map Prod.fst = List.range (renumber cs).length := by
  unfold renumber
  have hlen : (List.range cs.length).length = (cs.map Prod.snd).length := by
    rw [List.length_range, List.length_map]
  rw [List.map_fst_zip _ _ (le_of_eq hlen)]
  rw [List.length_zip, List.length_range, List.length_map, min_self]

theorem renumber_vals (cs : List (Nat × List Image)) :
    clusterVals (renumber cs) = clusterVals cs := by
  unfold renumber clusterVals
  rw [List.map_snd_zip _ _ (by rw [List.length_range, List.length_map])]

theorem hierarchical_facts (images : List Image) (θ : ℝ) (maxC : Option Nat) :
    List.Perm (clusterVals (hierarchical_cluster_images images θ maxC)) images ∧
      (hierarchical_cluster_images images θ maxC).map Prod.fst =
        List.range (hierarchical_cluster_images images θ maxC).length := by
  cases images with
  | nil => exact ⟨List.Perm.refl _, rfl⟩
  | cons x xs =>
    cases xs with
    | nil => exact ⟨by simp [hierarchical_cluster_images, clusterVals], rfl⟩
    | cons y ys =>
      show List.Perm (clusterVals (renumber (hloop (x :: y :: ys) θ maxC
          (x :: y :: ys).length (initClusters (x :: y :: ys))))) _ ∧ _
      have hnd : ((initClusters (x :: y :: ys)).map Prod.fst).Nodup := by
        rw [initClusters_keys]
        exact List.nodup_range _
      have hperm := hloop_perm (x :: y :: ys) θ maxC
        (x :: y :: ys).length (initClusters (x :: y :: ys)) hnd
      constructor
      · rw [renumber_vals]
        exact hperm.trans (by rw [initClusters_vals])
      · exact renumber_keys _

/-! ## Claim C7 -/

/-- C7: proximity clustering partitions its input — the concatenation of
all output clusters is a permutation of the input image list (every image
in exactly one cluster, nothing added) — and the surviving clusters carry
consecutive ids 0, 1, 2, .... -/
theorem cluster_images_partition (images : List Image) (dθ tθ : ℝ) :
    List.Perm (((cluster_images images dθ tθ).map Prod.snd).flatten) images ∧
      (cluster_images images dθ tθ).map Prod.fst =
        List.range (cluster_images images dθ tθ).length := by
  by_cases hempty : images = []
  · subst hempty
    constructor
    · simp [cluster_images]
    · simp [cluster_images]
  · have hperm0 :=
      (hierarchical_facts images (min (dθ / 10 + tθ / 24) 1 * 0.5) none).1
    have hkeys0 :=
      (hierarchical_facts images (min (dθ / 10 + tθ / 24) 1 * 0.5) none).2
    have hne : hierarchical_cluster_images images
        (min (dθ / 10 + tθ / 24) 1 * 0.5) none ≠ [] := by
      intro h
      have hlen := hperm0.length_eq
      rw [h] at hlen
      simp only [clusterVals, List.map_nil, List.flatten_nil,
        List.length_nil] at hlen
      exact hempty (List.eq_nil_of_length_eq_zero hlen.symm)
    have houtl : images.filter
        (fun i => i.id ∉ ((hierarchical_cluster_images images
          (min (dθ / 10 + tθ / 24) 1 * 0.5) none).map
            Prod.snd).flatten.map Image.id) = [] := by
      apply List.filter_eq_nil_iff.mpr
      intro i hi
      have himem : i ∈ clusterVals (hierarchical_cluster_images images
          (min (dθ / 10 + tθ / 24) 1 * 0.5) none) := hperm0.mem_iff.mpr hi
      unfold clusterVals at himem
      have hid : i.id ∈ ((hierarchical_cluster_images images
          (min (dθ / 10 + tθ / 24) 1 * 0.5) none).map
            Prod.snd).flatten.map Image.id :=
        List.mem_map_of_mem Image.id himem
      intro hcontra
      exact (of_decide_eq_true hcontra) hid
    have hresult : cluster_images images dθ tθ =
        hierarchical_cluster_images images
          (min (dθ / 10 + tθ / 24) 1 * 0.5) none := by
      simp only [cluster_images]
      rw [if_neg hempty, if_neg hne, houtl]
      rw [if_pos rfl]
    rw [hresult]
    exact ⟨hperm0, hkeys0⟩

/-! ## Claim C8 -/

/-- C8: clustering an empty list yields no clusters; clustering a single
image yields exactly one cluster (id 0) containing exactly that image. -/
theorem cluster_images_edge_cases :
    (∀ dθ tθ : ℝ, cluster_images [] dθ tθ = []) ∧
      ∀ (img : Image) (dθ tθ : ℝ), cluster_images [img] dθ tθ = [(0, [img])] := by
  constructor
  · intro dθ tθ
    simp [cluster_images]
  · intro img dθ tθ
    have h1 : hierarchical_cluster_images [img]
        (min (dθ / 10 + tθ / 24) 1 * 0.5) none = [(0, [img])] := rfl
    have houtl : ([img].filter
        (fun i => i.id ∉ (([((0 : ℕ), [img])].map Prod.snd).flatten.map
          Image.id))) = [] := by
      simp
    simp only [cluster_images]
    rw [if_neg (by simp : ¬ ([img] : List Image) = []), h1,
      if_neg (by simp : ¬ ([((0 : ℕ), [img])] : List (ℕ × List Image)) = []),
      houtl, if_pos rfl]

end AlbumMaker
